import Mathlib

/-!
Shallow embedding of the migrator in src/src/main.rs (the `Migrator` struct and
its methods, together with the bookkeeping part of `Config::init`).

Modelling conventions:
  * Rust `i64` version numbers become `Int` (no arithmetic near the i64 bounds
    occurs in the migrator, so no wrap-around modelling is needed).
  * The filesystem of migration scripts and the database are abstracted into an
    `Env`: `scripts v d` is the parsed statement list of the file named
    `v_d.sql` (`none` when the file is absent, mirroring the existence check in
    `get_queries`), and `commit qs` says whether a transaction consisting of
    the statement list `qs` executes and commits successfully (mirroring the
    `batch_execute` loop plus `commit` in `run_migration`).
  * The SQL statements the program itself constructs (the two bookkeeping
    statements appended in `get_queries`) are represented structurally by
    `Stmt.insertVersion` / `Stmt.deleteVersion`; statements coming from user
    script files are opaque `Stmt.script` values.
  * Each operation returns, besides the mutated `Migrator` and the
    `Result<usize>`, the ordered list of transactions that committed (`log`),
    one entry per successful `run_migration` call. This is the observable
    trace of what was executed against the database.
-/

/-- Statements executed inside a migration transaction.  `script s` is a
statement parsed from a user migration file; `insertVersion v` is the
bookkeeping statement INSERT INTO schema_migrations(version) VALUES (v)
appended for direction "up" (the dirty column is omitted and thus takes its
schema default FALSE); `deleteVersion v` is DELETE FROM schema_migrations
WHERE version = v appended for direction "down". -/
inductive Stmt where
  | script (s : String)
  | insertVersion (v : Int)
  | deleteVersion (v : Int)
  deriving DecidableEq, Repr

/-- Errors of the migrator, one constructor per distinct `anyhow!` site of the
source.  `noMigrations` is "no migrations found"; `invalidArgument` is
"0 steps requested"; `scriptNotFound v d` is the missing-file error of
`get_queries`; `dbError` stands for an underlying postgres statement or
commit failure inside `run_migration`; `migrationFailed v s` is the wrapper
error "error running migration v_s.sql" produced by the four migrate
operations (the source hardcodes the suffix "up" in that format string at
all four sites); `dirtyState` is the "last version is dirty" error of
`Config::init`. -/
inductive MigError where
  | noMigrations
  | invalidArgument
  | scriptNotFound (version : Int) (direction : String)
  | dbError
  | migrationFailed (version : Int) (suffix : String)
  | dirtyState
  deriving DecidableEq, Repr

/-- External collaborators of the migrator: the migration-script directory and
the database transaction layer. -/
structure Env where
  scripts : Int → String → Option (List String)
  commit : List Stmt → Bool

/-- The fields of `struct Migrator` that the migration logic reads or writes
(`config`, `dir`, `client` and the `initialized` flag are connection and
filesystem handles absorbed into `Env`; `initialized` is set to true in
`Migrator::new` before any operation can run and never reset). -/
structure Migrator where
  last_version : Int
  versions_up : List Int
  versions_down : List Int
  deriving DecidableEq, Repr

instance {ε α : Type} [DecidableEq ε] [DecidableEq α] :
    DecidableEq (Except ε α) := fun a b =>
  match a, b with
  | .ok x, .ok y =>
    if h : x = y then .isTrue (by rw [h])
    else .isFalse fun hh => h (Except.ok.inj hh)
  | .error x, .error y =>
    if h : x = y then .isTrue (by rw [h])
    else .isFalse fun hh => h (Except.error.inj hh)
  | .ok _, .error _ => .isFalse fun hh => Except.noConfusion hh
  | .error _, .ok _ => .isFalse fun hh => Except.noConfusion hh

/-- Result of one migrate operation: the mutated migrator, the list of
transactions that committed (in order, one statement list per successful
`run_migration`), and the returned `Result<usize>`. -/
structure OpResult where
  state : Migrator
  log : List (List Stmt)
  result : Except MigError Nat
  deriving DecidableEq, Repr

/-- Embedding of `Migrator::get_queries`: read and parse the script file for
`(version, direction)` (error if absent), then append the single bookkeeping
statement — the insert for direction "up", the delete for direction "down". -/
def get_queries (env : Env) (version : Int) (direction : String) :
    Except MigError (List Stmt) :=
  match env.scripts version direction with
  | none => .error (.scriptNotFound version direction)
  | some stmts =>
    let result := stmts.map Stmt.script
    if direction = "up" then .ok (result ++ [Stmt.insertVersion version])
    else if direction = "down" then .ok (result ++ [Stmt.deleteVersion version])
    else .ok result

/-- Embedding of `Migrator::run_migration`: obtain the statement list from
`get_queries`, execute all of it in one transaction and commit.  On success
the committed statement list (the content of the transaction) is returned so that
callers can log it; the source returns `()` but the committed statements are
exactly this list. -/
def run_migration (env : Env) (version : Int) (direction : String) :
    Except MigError (List Stmt) :=
  match get_queries env version direction with
  | .error e => .error e
  | .ok queries => if env.commit queries then .ok queries else .error .dbError

/-- Selection loop of `Migrator::migrate_up` over the remaining list, carrying
the running `version` variable:
for v in versions_up, if v > version then push v and set version := v. -/
def upSelAllGo : List Int → Int → List Int
  | [], _ => []
  | v :: rest, version =>
    if v > version then v :: upSelAllGo rest v else upSelAllGo rest version

/-- The plan `migrate_up` selects from head `v0` and available list `vs`. -/
def upSelAll (v0 : Int) (vs : List Int) : List Int :=
  upSelAllGo vs v0

/-- Selection loop of `Migrator::migrate_up_n`, carrying `version` and
`count`: if v > version and count < n then push v, version := v,
count := count + 1. -/
def upSelNGo (n : Nat) : List Int → Int → Nat → List Int
  | [], _, _ => []
  | v :: rest, version, count =>
    if v > version ∧ count < n then v :: upSelNGo n rest v (count + 1)
    else upSelNGo n rest version count

/-- The plan `migrate_up_n` selects from head `v0`, list `vs` and step
count `n`. -/
def upSelN (v0 : Int) (vs : List Int) (n : Nat) : List Int :=
  upSelNGo n vs v0 0

/-- Selection loop of `Migrator::migrate_down` over the reversed available
list: for v in versions_down.iter().rev(), if v <= version then push v and
set version := v. -/
def downSelAllGo : List Int → Int → List Int
  | [], _ => []
  | v :: rest, version =>
    if v ≤ version then v :: downSelAllGo rest v else downSelAllGo rest version

/-- The plan `migrate_down` selects from head `v0` and available list `vs`. -/
def downSelAll (v0 : Int) (vs : List Int) : List Int :=
  downSelAllGo vs.reverse v0

/-- Selection loop of `Migrator::migrate_down_n` over the reversed available
list with the enumeration counter `i`, carrying `version`, `count` and the
`index` variable: on every accepted element the source records
index := versions_down.len() - 1 - i.  Returns the selected plan together
with the final value of `index`. -/
def downSelGo (len n : Nat) : List Int → Nat → Int → Nat → Nat → List Int × Nat
  | [], _, _, _, index => ([], index)
  | v :: rest, i, version, count, index =>
    if v ≤ version ∧ count < n then
      let r := downSelGo len n rest (i + 1) v (count + 1) (len - 1 - i)
      (v :: r.1, r.2)
    else
      downSelGo len n rest (i + 1) version count index

/-- The plan and final `index` `migrate_down_n` computes from head `v0`,
list `vs` and step count `n` (index starts at 0). -/
def downSelN (v0 : Int) (vs : List Int) (n : Nat) : List Int × Nat :=
  downSelGo vs.length n vs.reverse 0 v0 0 0

/-- Execution loop shared by `migrate_up` and `migrate_up_n`: for each planned
version, unless `test` is set, run the migration with direction "up" and on
failure return the wrapper error naming the version with the hardcoded
suffix "up"; then (after a successful run, or immediately in test mode) set
last_version to the version.  Returns the final last_version, the log of
committed transactions, and the error if one occurred. -/
def runUpLoop (env : Env) (test : Bool) :
    List Int → Int → List (List Stmt) → Int × List (List Stmt) × Option MigError
  | [], lv, log => (lv, log, none)
  | v :: rest, lv, log =>
    if test then runUpLoop env test rest v log
    else
      match run_migration env v "up" with
      | .ok queries => runUpLoop env test rest v (log ++ [queries])
      | .error _ => (lv, log, some (.migrationFailed v "up"))

/-- Execution loop shared by `migrate_down` and `migrate_down_n`.  Note two
faithful peculiarities of the source: last_version is set to the planned
version BEFORE `run_migration` is invoked for it, and the direction string
passed to `run_migration` is "up", not "down" (lines 402 and 442 of
src/src/main.rs), so the up script and the insert bookkeeping run. -/
def runDownLoop (env : Env) (test : Bool) :
    List Int → Int → List (List Stmt) → Int × List (List Stmt) × Option MigError
  | [], lv, log => (lv, log, none)
  | v :: rest, _, log =>
    if test then runDownLoop env test rest v log
    else
      match run_migration env v "up" with
      | .ok queries => runDownLoop env test rest v (log ++ [queries])
      | .error _ => (v, log, some (.migrationFailed v "up"))

/-- Embedding of `Migrator::migrate_up_n`. -/
def migrate_up_n (m : Migrator) (env : Env) (n : Nat) (test : Bool) : OpResult :=
  if m.versions_up = [] then ⟨m, [], .error .noMigrations⟩
  else
    match runUpLoop env test (upSelN m.last_version m.versions_up n)
        m.last_version [] with
    | (lv, log, none) =>
      ⟨⟨lv, m.versions_up, m.versions_down⟩, log,
       .ok (upSelN m.last_version m.versions_up n).length⟩
    | (lv, log, some e) =>
      ⟨⟨lv, m.versions_up, m.versions_down⟩, log, .error e⟩

/-- Embedding of `Migrator::migrate_up`. -/
def migrate_up (m : Migrator) (env : Env) (test : Bool) : OpResult :=
  if m.versions_up = [] then ⟨m, [], .error .noMigrations⟩
  else
    match runUpLoop env test (upSelAll m.last_version m.versions_up)
        m.last_version [] with
    | (lv, log, none) =>
      ⟨⟨lv, m.versions_up, m.versions_down⟩, log,
       .ok (upSelAll m.last_version m.versions_up).length⟩
    | (lv, log, some e) =>
      ⟨⟨lv, m.versions_up, m.versions_down⟩, log, .error e⟩

/-- Embedding of `Migrator::migrate_down_n`: empty-list check first, then the
n = 0 check; select the plan and the down index; run the plan; on success
repair last_version from the index (the entry of versions_down just before
the index when positive and present, else 0). -/
def migrate_down_n (m : Migrator) (env : Env) (n : Nat) (test : Bool) : OpResult :=
  if m.versions_down = [] then ⟨m, [], .error .noMigrations⟩
  else if n = 0 then ⟨m, [], .error .invalidArgument⟩
  else
    match runDownLoop env test (downSelN m.last_version m.versions_down n).1
        m.last_version [] with
    | (lv, log, some e) =>
      ⟨⟨lv, m.versions_up, m.versions_down⟩, log, .error e⟩
    | (lv, log, none) =>
      ⟨⟨if 0 < (downSelN m.last_version m.versions_down n).2 then
          match m.versions_down[(downSelN m.last_version m.versions_down n).2
              - 1]? with
          | some v => v
          | none => lv
        else 0, m.versions_up, m.versions_down⟩, log,
       .ok (downSelN m.last_version m.versions_down n).1.length⟩

/-- Embedding of `Migrator::migrate_down`: select every available version at
or below the head in descending order, run the plan, and on success set
last_version to 0 unconditionally. -/
def migrate_down (m : Migrator) (env : Env) (test : Bool) : OpResult :=
  if m.versions_down = [] then ⟨m, [], .error .noMigrations⟩
  else
    match runDownLoop env test (downSelAll m.last_version m.versions_down)
        m.last_version [] with
    | (lv, log, some e) =>
      ⟨⟨lv, m.versions_up, m.versions_down⟩, log, .error e⟩
    | (_, log, none) =>
      ⟨⟨0, m.versions_up, m.versions_down⟩, log,
       .ok (downSelAll m.last_version m.versions_down).length⟩

/-- The statement list a successful up-direction `run_migration` of version
`v` commits (the empty list when the script is absent, in which case no
transaction can commit for `v`). -/
def upQueries (env : Env) (v : Int) : List Stmt :=
  match get_queries env v "up" with
  | .ok q => q
  | .error _ => []

/-- The schema_migrations table: one row per applied version with its dirty
flag. -/
abbrev Table := List (Int × Bool)

/-- Effect of one program-issued statement on the schema_migrations table.
The insert omits the dirty column, so the row takes the schema default
FALSE; the delete removes the rows of the version; statements parsed from
user script files address user tables, not the bookkeeping table, and the
program constructs no other statement touching it. -/
def applyStmt (t : Table) : Stmt → Table
  | .script _ => t
  | .insertVersion v => t ++ [(v, false)]
  | .deleteVersion v => t.filter fun r => decide (r.1 ≠ v)

/-- Effect of one committed transaction on the schema_migrations table. -/
def applyBatch (t : Table) (qs : List Stmt) : Table :=
  qs.foldl applyStmt t

/-- Effect of a whole operation log on the schema_migrations table. -/
def applyLog (t : Table) (log : List (List Stmt)) : Table :=
  log.foldl applyBatch t

/-- The row SELECT version, dirty FROM schema_migrations ORDER BY version DESC
LIMIT 1 returns: a row of maximal version, none on an empty table. -/
def maxRow : Table → Option (Int × Bool)
  | [] => none
  | r :: rest =>
    match maxRow rest with
    | none => some r
    | some r2 => if r2.1 > r.1 then some r2 else some r

/-- The head-reading part of `Config::init` (lines 126 to 141 of
src/src/main.rs): 0 when the table is empty, the dirty-state error when the
highest row is dirty, otherwise its version. -/
def init_read_head (t : Table) : Except MigError Int :=
  match maxRow t with
  | none => .ok 0
  | some r => if r.2 then .error .dirtyState else .ok r.1

/-! ## Planner lemmas -/

theorem upSelAllGo_filter (l : List Int) (version : Int)
    (hs : l.Pairwise (· < ·)) :
    upSelAllGo l version = l.filter fun x => decide (version < x) := by
  induction l generalizing version with
  | nil => rfl
  | cons v rest ih =>
    rcases List.pairwise_cons.1 hs with ⟨hv, hrest⟩
    by_cases h : v > version
    · simp only [upSelAllGo]
      rw [if_pos h, List.filter_cons_of_pos (by simpa using h), ih v hrest]
      rw [List.filter_eq_self.2 fun x hx => by simpa using hv x hx,
        List.filter_eq_self.2 fun x hx => by
          simpa using lt_trans h (hv x hx)]
    · simp only [upSelAllGo]
      rw [if_neg h, List.filter_cons_of_neg (by simpa using h), ih version hrest]

theorem downSelAllGo_filter (l : List Int) (version : Int)
    (hs : l.Pairwise (· > ·)) :
    downSelAllGo l version = l.filter fun x => decide (x ≤ version) := by
  induction l generalizing version with
  | nil => rfl
  | cons v rest ih =>
    rcases List.pairwise_cons.1 hs with ⟨hv, hrest⟩
    by_cases h : v ≤ version
    · simp only [downSelAllGo]
      rw [if_pos h, List.filter_cons_of_pos (by simpa using h), ih v hrest]
      rw [List.filter_eq_self.2 fun x hx => by
          simpa using le_of_lt (hv x hx),
        List.filter_eq_self.2 fun x hx => by
          simpa using le_trans (le_of_lt (hv x hx)) h]
    · simp only [downSelAllGo]
      rw [if_neg h, List.filter_cons_of_neg (by simpa using h), ih version hrest]

theorem downSelAllGo_nil (l : List Int) (version : Int)
    (h : ∀ x ∈ l, version < x) :
    downSelAllGo l version = [] := by
  induction l with
  | nil => rfl
  | cons v rest ih =>
    simp only [downSelAllGo]
    rw [if_neg (not_le.2 (h v (by simp)))]
    exact ih fun x hx => h x (by simp [hx])

theorem upSelNGo_sat (n : Nat) (l : List Int) (version : Int) (count : Nat)
    (h : n ≤ count) :
    upSelNGo n l version count = [] := by
  induction l generalizing version with
  | nil => rfl
  | cons v rest ih =>
    simp only [upSelNGo]
    rw [if_neg fun hh => absurd hh.2 (by omega)]
    exact ih version

theorem upSelNGo_take (n : Nat) (l : List Int) (version : Int) (count : Nat) :
    upSelNGo n l version count = (upSelAllGo l version).take (n - count) := by
  induction l generalizing version count with
  | nil => simp [upSelNGo, upSelAllGo]
  | cons v rest ih =>
    by_cases hv : v > version
    · by_cases hc : count < n
      · simp only [upSelNGo, upSelAllGo]
        rw [if_pos ⟨hv, hc⟩, if_pos hv]
        have h1 : n - count = (n - (count + 1)) + 1 := by omega
        rw [h1, List.take_succ_cons, ih v (count + 1)]
      · simp only [upSelNGo, upSelAllGo]
        rw [if_neg fun hh => hc hh.2, if_pos hv,
          upSelNGo_sat n rest version count (by omega)]
        have h1 : n - count = 0 := by omega
        rw [h1, List.take_zero]
    · simp only [upSelNGo, upSelAllGo]
      rw [if_neg fun hh => hv hh.1, if_neg hv]
      exact ih version count

theorem downSelGo_sat (len n : Nat) (l : List Int) (i : Nat) (version : Int)
    (count index : Nat) (h : n ≤ count) :
    downSelGo len n l i version count index = ([], index) := by
  induction l generalizing i with
  | nil => rfl
  | cons v rest ih =>
    simp only [downSelGo]
    rw [if_neg fun hh => absurd hh.2 (by omega)]
    exact ih (i + 1)

theorem downSelGo_skip (len n : Nat) (l₁ l₂ : List Int) (i : Nat)
    (version : Int) (count index : Nat) (h : ∀ x ∈ l₁, version < x) :
    downSelGo len n (l₁ ++ l₂) i version count index =
      downSelGo len n l₂ (i + l₁.length) version count index := by
  induction l₁ generalizing i with
  | nil => simp
  | cons v rest ih =>
    simp only [List.cons_append, List.append_eq, downSelGo]
    rw [if_neg fun hh => absurd hh.1 (not_le.2 (h v (by simp)))]
    rw [ih (i + 1) fun x hx => h x (by simp [hx])]
    have harith : i + 1 + rest.length = i + (v :: rest).length := by
      simp only [List.length_cons]; omega
    rw [harith]

theorem downSelGo_accept (len n : Nat) (l : List Int) (i : Nat)
    (version : Int) (count index : Nat) (hne : l ≠ [])
    (hp : l.Pairwise (· > ·)) (hle : ∀ x ∈ l, x ≤ version) (hc : count < n) :
    downSelGo len n l i version count index =
      (l.take (n - count), len - 1 - (i + (min (n - count) l.length - 1))) := by
  induction l generalizing i version count index with
  | nil => exact absurd rfl hne
  | cons v rest ih =>
    rcases List.pairwise_cons.1 hp with ⟨hv, hrest⟩
    simp only [downSelGo]
    rw [if_pos ⟨hle v (by simp), hc⟩]
    by_cases hrne : rest = []
    · subst hrne
      simp only [downSelGo]
      have h1 : n - count = (n - count - 1) + 1 := by omega
      simp only [Prod.mk.injEq]
      constructor
      · rw [h1, List.take_succ_cons, List.take_nil]
      · simp only [List.length_cons, List.length_nil]
        omega
    · by_cases hc2 : count + 1 < n
      · rw [ih (i + 1) v (count + 1) (len - 1 - i) hrne hrest
          (fun x hx => le_of_lt (hv x hx)) hc2]
        have hrlen : 1 ≤ rest.length := List.length_pos.2 hrne
        simp only [Prod.mk.injEq]
        constructor
        · have h1 : n - count = (n - (count + 1)) + 1 := by omega
          rw [h1, List.take_succ_cons]
        · simp only [List.length_cons]
          omega
      · rw [downSelGo_sat len n rest (i + 1) v (count + 1) (len - 1 - i)
          (by omega)]
        simp only [Prod.mk.injEq]
        constructor
        · have h1 : n - count = 1 := by omega
          rw [h1]
          rfl
        · simp only [List.length_cons]
          omega

theorem sorted_dropWhile_gt (vs : List Int) (v0 : Int)
    (hs : vs.Pairwise (· < ·)) :
    ∀ x ∈ vs.dropWhile (fun y => decide (y ≤ v0)), v0 < x := by
  induction vs with
  | nil => simp
  | cons v rest ih =>
    rcases List.pairwise_cons.1 hs with ⟨hv, hrest⟩
    by_cases h : v ≤ v0
    · rw [List.dropWhile_cons_of_pos (by simpa using h)]
      exact ih hrest
    · rw [List.dropWhile_cons_of_neg (by simpa using h)]
      intro x hx
      rcases List.mem_cons.1 hx with rfl | hx
      · omega
      · exact lt_trans (by omega) (hv x hx)

theorem downSelN_empty (v0 : Int) (vs : List Int) (n : Nat)
    (h : ∀ x ∈ vs, v0 < x) :
    downSelN v0 vs n = ([], 0) := by
  unfold downSelN
  have hskip := downSelGo_skip vs.length n vs.reverse [] 0 v0 0 0
    fun x hx => h x (List.mem_reverse.1 hx)
  simpa using hskip

theorem downSelN_eq (v0 : Int) (vs : List Int) (n : Nat)
    (hs : vs.Pairwise (· < ·)) (hn : 1 ≤ n)
    (hA : vs.takeWhile (fun y => decide (y ≤ v0)) ≠ []) :
    downSelN v0 vs n =
      ((vs.takeWhile (fun y => decide (y ≤ v0))).reverse.take n,
       (vs.takeWhile (fun y => decide (y ≤ v0))).length -
         min n (vs.takeWhile (fun y => decide (y ≤ v0))).length) := by
  have hsplit : vs.takeWhile (fun y => decide (y ≤ v0)) ++
      vs.dropWhile (fun y => decide (y ≤ v0)) = vs :=
    List.takeWhile_append_dropWhile (fun y => decide (y ≤ v0)) vs
  have hrev : vs.reverse =
      (vs.dropWhile (fun y => decide (y ≤ v0))).reverse ++
        (vs.takeWhile (fun y => decide (y ≤ v0))).reverse := by
    conv_lhs => rw [← hsplit]
    rw [List.reverse_append]
  have hlen : vs.length =
      (vs.takeWhile (fun y => decide (y ≤ v0))).length +
        (vs.dropWhile (fun y => decide (y ≤ v0))).length := by
    conv_lhs => rw [← hsplit]
    rw [List.length_append]
  unfold downSelN
  rw [hrev, downSelGo_skip vs.length n _ _ 0 v0 0 0
    (fun x hx => sorted_dropWhile_gt vs v0 hs x (List.mem_reverse.1 hx))]
  rw [downSelGo_accept vs.length n _ _ v0 0 0
    (by simpa using hA)
    (List.pairwise_reverse.2
      (List.Pairwise.sublist (List.takeWhile_sublist _) hs))
    (fun x hx => by
      simpa using List.mem_takeWhile_imp (List.mem_reverse.1 hx))
    (by omega)]
  simp only [Prod.mk.injEq, List.length_reverse, Nat.sub_zero]
  constructor
  · trivial
  · have h1 : 1 ≤ (vs.takeWhile (fun y => decide (y ≤ v0))).length :=
      List.length_pos.2 hA
    have h2 : min n (vs.takeWhile (fun y => decide (y ≤ v0))).length ≤
        (vs.takeWhile (fun y => decide (y ≤ v0))).length := min_le_right _ _
    have h3 : 1 ≤ min n (vs.takeWhile (fun y => decide (y ≤ v0))).length := by
      omega
    omega

/-! ## Execution lemmas -/

theorem get_queries_up (env : Env) (v : Int) (queries : List Stmt)
    (h : get_queries env v "up" = .ok queries) :
    ∃ ss, env.scripts v "up" = some ss ∧
      queries = ss.map Stmt.script ++ [Stmt.insertVersion v] := by
  unfold get_queries at h
  cases hs : env.scripts v "up" with
  | none => rw [hs] at h; exact absurd h (by simp)
  | some ss =>
    rw [hs] at h
    simp only [if_pos rfl] at h
    exact ⟨ss, rfl, (Except.ok.inj h).symm⟩

theorem run_migration_up_ok (env : Env) (v : Int) (q : List Stmt)
    (h : run_migration env v "up" = .ok q) :
    upQueries env v = q ∧ Stmt.insertVersion v ∈ q := by
  unfold run_migration at h
  cases hq : get_queries env v "up" with
  | error e => rw [hq] at h; exact absurd h (by simp)
  | ok queries =>
    rw [hq] at h
    have h2 : (if env.commit queries = true then
        (Except.ok queries : Except MigError (List Stmt))
        else Except.error MigError.dbError) = Except.ok q := h
    by_cases hc : env.commit queries
    · rw [if_pos hc] at h2
      have hqq : queries = q := Except.ok.inj h2
      subst hqq
      obtain ⟨ss, _, hform⟩ := get_queries_up env v queries hq
      constructor
      · unfold upQueries
        rw [hq]
      · rw [hform]
        simp
    · rw [if_neg hc] at h2
      exact absurd h2 (by simp)

theorem runUpLoop_none (env : Env) (test : Bool) (versions : List Int)
    (lv : Int) (log : List (List Stmt)) (lv' : Int) (log' : List (List Stmt))
    (h : runUpLoop env test versions lv log = (lv', log', none)) :
    lv' = versions.getLastD lv := by
  induction versions generalizing lv log with
  | nil =>
    simp only [runUpLoop, Prod.mk.injEq] at h
    exact h.1.symm
  | cons v rest ih =>
    simp only [runUpLoop] at h
    by_cases ht : test
    · rw [if_pos ht] at h
      rw [List.getLastD_cons]
      exact ih v log h
    · rw [if_neg ht] at h
      cases hr : run_migration env v "up" with
      | ok q =>
        rw [hr] at h
        rw [List.getLastD_cons]
        exact ih v (log ++ [q]) h
      | error e =>
        rw [hr] at h
        simp at h

theorem runDownLoop_none (env : Env) (test : Bool) (versions : List Int)
    (lv : Int) (log : List (List Stmt)) (lv' : Int) (log' : List (List Stmt))
    (h : runDownLoop env test versions lv log = (lv', log', none)) :
    lv' = versions.getLastD lv := by
  induction versions generalizing lv log with
  | nil =>
    simp only [runDownLoop, Prod.mk.injEq] at h
    exact h.1.symm
  | cons v rest ih =>
    simp only [runDownLoop] at h
    by_cases ht : test
    · rw [if_pos ht] at h
      rw [List.getLastD_cons]
      exact ih v log h
    · rw [if_neg ht] at h
      cases hr : run_migration env v "up" with
      | ok q =>
        rw [hr] at h
        rw [List.getLastD_cons]
        exact ih v (log ++ [q]) h
      | error e =>
        rw [hr] at h
        simp at h

theorem runUpLoop_error (env : Env) (versions : List Int) (lv : Int)
    (log : List (List Stmt)) (lv' : Int) (log' : List (List Stmt))
    (e : MigError)
    (h : runUpLoop env false versions lv log = (lv', log', some e)) :
    ∃ v pre post, versions = pre ++ v :: post ∧
      e = .migrationFailed v "up" ∧
      log' = log ++ pre.map (upQueries env) ∧ lv' = pre.getLastD lv := by
  induction versions generalizing lv log with
  | nil => simp [runUpLoop] at h
  | cons v rest ih =>
    simp only [runUpLoop] at h
    rw [if_neg (by simp)] at h
    cases hr : run_migration env v "up" with
    | ok q =>
      rw [hr] at h
      obtain ⟨w, pre, post, hsplit, he, hlog, hlv⟩ := ih v (log ++ [q]) h
      refine ⟨w, v :: pre, post, by rw [hsplit]; rfl, he, ?_, ?_⟩
      · rw [hlog, List.map_cons, (run_migration_up_ok env v q hr).1]
        simp
      · rw [hlv, List.getLastD_cons]
    | error e2 =>
      rw [hr] at h
      simp only [Prod.mk.injEq] at h
      refine ⟨v, [], rest, rfl, ?_, ?_, ?_⟩
      · exact (Option.some.inj h.2.2).symm
      · rw [List.map_nil, List.append_nil]
        exact h.2.1.symm
      · exact h.1.symm

theorem runDownLoop_error (env : Env) (versions : List Int) (lv : Int)
    (log : List (List Stmt)) (lv' : Int) (log' : List (List Stmt))
    (e : MigError)
    (h : runDownLoop env false versions lv log = (lv', log', some e)) :
    ∃ v pre post, versions = pre ++ v :: post ∧
      e = .migrationFailed v "up" ∧
      log' = log ++ pre.map (upQueries env) ∧ lv' = v := by
  induction versions generalizing lv log with
  | nil => simp [runDownLoop] at h
  | cons v rest ih =>
    simp only [runDownLoop] at h
    rw [if_neg (by simp)] at h
    cases hr : run_migration env v "up" with
    | ok q =>
      rw [hr] at h
      obtain ⟨w, pre, post, hsplit, he, hlog, hlv⟩ := ih v (log ++ [q]) h
      refine ⟨w, v :: pre, post, by rw [hsplit]; rfl, he, ?_, hlv⟩
      rw [hlog, List.map_cons, (run_migration_up_ok env v q hr).1]
      simp
    | error e2 =>
      rw [hr] at h
      simp only [Prod.mk.injEq] at h
      refine ⟨v, [], rest, rfl, ?_, ?_, ?_⟩
      · exact (Option.some.inj h.2.2).symm
      · rw [List.map_nil, List.append_nil]
        exact h.2.1.symm
      · exact h.1.symm

theorem runUpLoop_log_extends (env : Env) (test : Bool) (versions : List Int)
    (lv : Int) (log : List (List Stmt)) :
    ∃ ext, (runUpLoop env test versions lv log).2.1 = log ++ ext := by
  induction versions generalizing lv log with
  | nil => exact ⟨[], by simp [runUpLoop]⟩
  | cons v rest ih =>
    simp only [runUpLoop]
    by_cases ht : test
    · rw [if_pos ht]
      exact ih v log
    · rw [if_neg ht]
      cases hr : run_migration env v "up" with
      | ok q =>
        obtain ⟨ext, hext⟩ := ih v (log ++ [q])
        exact ⟨[q] ++ ext, by rw [hext, List.append_assoc]⟩
      | error e => exact ⟨[], by simp⟩

theorem runUpLoop_lv_committed (env : Env) (versions : List Int) (lv : Int)
    (log : List (List Stmt)) (lv' : Int) (log' : List (List Stmt))
    (err : Option MigError)
    (h : runUpLoop env false versions lv log = (lv', log', err)) :
    lv' = lv ∨ ∃ q ∈ log', Stmt.insertVersion lv' ∈ q := by
  induction versions generalizing lv log with
  | nil =>
    simp only [runUpLoop, Prod.mk.injEq] at h
    exact Or.inl h.1.symm
  | cons v rest ih =>
    simp only [runUpLoop] at h
    rw [if_neg (by simp)] at h
    cases hr : run_migration env v "up" with
    | error e =>
      rw [hr] at h
      simp only [Prod.mk.injEq] at h
      exact Or.inl h.1.symm
    | ok q =>
      rw [hr] at h
      replace h : runUpLoop env false rest v (log ++ [q]) = (lv', log', err) := h
      rcases ih v (log ++ [q]) h with hlv | ⟨q2, hq2, hin⟩
      · right
        obtain ⟨ext, hext⟩ := runUpLoop_log_extends env false rest v (log ++ [q])
        rw [h] at hext
        replace hext : log' = log ++ [q] ++ ext := hext
        refine ⟨q, ?_, ?_⟩
        · rw [hext]; simp
        · rw [hlv]
          exact (run_migration_up_ok env v q hr).2
      · exact Or.inr ⟨q2, hq2, hin⟩

/-! ## Operation shape lemmas -/

theorem migrate_up_n_ok_shape (m : Migrator) (env : Env) (n : Nat)
    (test : Bool) (lv : Int) (log : List (List Stmt))
    (hvs : m.versions_up ≠ [])
    (hloop : runUpLoop env test (upSelN m.last_version m.versions_up n)
      m.last_version [] = (lv, log, none)) :
    migrate_up_n m env n test =
      ⟨⟨lv, m.versions_up, m.versions_down⟩, log,
       .ok (upSelN m.last_version m.versions_up n).length⟩ := by
  unfold migrate_up_n
  rw [if_neg hvs, hloop]

theorem migrate_up_n_err_shape (m : Migrator) (env : Env) (n : Nat)
    (test : Bool) (lv : Int) (log : List (List Stmt)) (e : MigError)
    (hvs : m.versions_up ≠ [])
    (hloop : runUpLoop env test (upSelN m.last_version m.versions_up n)
      m.last_version [] = (lv, log, some e)) :
    migrate_up_n m env n test =
      ⟨⟨lv, m.versions_up, m.versions_down⟩, log, .error e⟩ := by
  unfold migrate_up_n
  rw [if_neg hvs, hloop]

theorem migrate_up_ok_shape (m : Migrator) (env : Env)
    (test : Bool) (lv : Int) (log : List (List Stmt))
    (hvs : m.versions_up ≠ [])
    (hloop : runUpLoop env test (upSelAll m.last_version m.versions_up)
      m.last_version [] = (lv, log, none)) :
    migrate_up m env test =
      ⟨⟨lv, m.versions_up, m.versions_down⟩, log,
       .ok (upSelAll m.last_version m.versions_up).length⟩ := by
  unfold migrate_up
  rw [if_neg hvs, hloop]

theorem migrate_up_err_shape (m : Migrator) (env : Env)
    (test : Bool) (lv : Int) (log : List (List Stmt)) (e : MigError)
    (hvs : m.versions_up ≠ [])
    (hloop : runUpLoop env test (upSelAll m.last_version m.versions_up)
      m.last_version [] = (lv, log, some e)) :
    migrate_up m env test =
      ⟨⟨lv, m.versions_up, m.versions_down⟩, log, .error e⟩ := by
  unfold migrate_up
  rw [if_neg hvs, hloop]

theorem migrate_down_n_ok_shape (m : Migrator) (env : Env) (n : Nat)
    (test : Bool) (lv : Int) (log : List (List Stmt))
    (hvs : m.versions_down ≠ []) (hn0 : ¬ n = 0)
    (hloop : runDownLoop env test
      (downSelN m.last_version m.versions_down n).1
      m.last_version [] = (lv, log, none)) :
    migrate_down_n m env n test =
      ⟨⟨if 0 < (downSelN m.last_version m.versions_down n).2 then
          match m.versions_down[(downSelN m.last_version m.versions_down n).2
              - 1]? with
          | some v => v
          | none => lv
        else 0, m.versions_up, m.versions_down⟩, log,
       .ok (downSelN m.last_version m.versions_down n).1.length⟩ := by
  unfold migrate_down_n
  rw [if_neg hvs, if_neg hn0, hloop]

theorem migrate_down_n_err_shape (m : Migrator) (env : Env) (n : Nat)
    (test : Bool) (lv : Int) (log : List (List Stmt)) (e : MigError)
    (hvs : m.versions_down ≠ []) (hn0 : ¬ n = 0)
    (hloop : runDownLoop env test
      (downSelN m.last_version m.versions_down n).1
      m.last_version [] = (lv, log, some e)) :
    migrate_down_n m env n test =
      ⟨⟨lv, m.versions_up, m.versions_down⟩, log, .error e⟩ := by
  unfold migrate_down_n
  rw [if_neg hvs, if_neg hn0, hloop]

theorem migrate_down_ok_shape (m : Migrator) (env : Env)
    (test : Bool) (lv : Int) (log : List (List Stmt))
    (hvs : m.versions_down ≠ [])
    (hloop : runDownLoop env test (downSelAll m.last_version m.versions_down)
      m.last_version [] = (lv, log, none)) :
    migrate_down m env test =
      ⟨⟨0, m.versions_up, m.versions_down⟩, log,
       .ok (downSelAll m.last_version m.versions_down).length⟩ := by
  unfold migrate_down
  rw [if_neg hvs, hloop]

theorem migrate_down_err_shape (m : Migrator) (env : Env)
    (test : Bool) (lv : Int) (log : List (List Stmt)) (e : MigError)
    (hvs : m.versions_down ≠ [])
    (hloop : runDownLoop env test (downSelAll m.last_version m.versions_down)
      m.last_version [] = (lv, log, some e)) :
    migrate_down m env test =
      ⟨⟨lv, m.versions_up, m.versions_down⟩, log, .error e⟩ := by
  unfold migrate_down
  rw [if_neg hvs, hloop]

/-! ## Bookkeeping-table lemmas -/

theorem applyStmt_clean (t : Table) (s : Stmt) (h : ∀ r ∈ t, r.2 = false) :
    ∀ r ∈ applyStmt t s, r.2 = false := by
  cases s with
  | script s => exact h
  | insertVersion v =>
    intro r hr
    rcases List.mem_append.1 hr with hr | hr
    · exact h r hr
    · simp only [List.mem_singleton] at hr
      rw [hr]
  | deleteVersion v =>
    intro r hr
    exact h r (List.mem_of_mem_filter hr)

theorem applyBatch_clean (qs : List Stmt) (t : Table)
    (h : ∀ r ∈ t, r.2 = false) :
    ∀ r ∈ applyBatch t qs, r.2 = false := by
  induction qs generalizing t with
  | nil => exact h
  | cons q rest ih => exact ih (applyStmt t q) (applyStmt_clean t q h)

theorem applyLog_clean (log : List (List Stmt)) (t : Table)
    (h : ∀ r ∈ t, r.2 = false) :
    ∀ r ∈ applyLog t log, r.2 = false := by
  induction log generalizing t with
  | nil => exact h
  | cons b rest ih => exact ih (applyBatch t b) (applyBatch_clean b t h)

theorem maxRow_mem (t : Table) (r : Int × Bool) (h : maxRow t = some r) :
    r ∈ t := by
  induction t with
  | nil => simp [maxRow] at h
  | cons x rest ih =>
    simp only [maxRow] at h
    cases hm : maxRow rest with
    | none =>
      rw [hm] at h
      rw [← Option.some.inj h]
      simp
    | some r2 =>
      rw [hm] at h
      replace h : (if r2.1 > x.1 then some r2 else some x) = some r := h
      by_cases hgt : r2.1 > x.1
      · rw [if_pos hgt] at h
        have hr2 := Option.some.inj h
        subst hr2
        exact List.mem_cons_of_mem x (ih hm)
      · rw [if_neg hgt] at h
        rw [← Option.some.inj h]
        simp
  
theorem init_read_head_clean (t : Table) (h : ∀ r ∈ t, r.2 = false) :
    init_read_head t ≠ .error .dirtyState := by
  unfold init_read_head
  cases hm : maxRow t with
  | none => simp
  | some r =>
    have hr := maxRow_mem t r hm
    simp [h r hr]

/-! ## Concrete fixtures used by the closed theorems -/

/-- Fixture: no script file exists; every transaction commits. -/
def envNoFiles : Env := ⟨fun _ _ => none, fun _ => true⟩

/-- Fixture: an empty script file exists for every version and direction; a
transaction fails exactly when it carries the bookkeeping insert of
version 2, so execution fails upon reaching version 2. -/
def envFailAt2 : Env :=
  ⟨fun _ _ => some [], fun q => !(decide (Stmt.insertVersion 2 ∈ q))⟩

/-- Fixture: a distinct up script and down script exist for every version;
every transaction commits. -/
def envUpDown : Env :=
  ⟨fun _ d =>
    if d = "up" then some ["CREATE TABLE t (x INT)"]
    else if d = "down" then some ["DROP TABLE t"] else none,
   fun _ => true⟩

/-- Fixture: fifteen ascending versions, as in the tests of the repository itself. -/
def fifteen : List Int := [1, 2, 3, 4, 5, 6, 7, 8, 9, 10, 11, 12, 13, 14, 15]

/-! ## Claim theorems -/

/-- C1: the claim states that for every version executed by a down operation
(`migrate_down` or `migrate_down_n` with test = false) the transaction is the
down script of the version followed by the delete bookkeeping statement, never the
up script or the insert statement.  The code violates this: both down
operations invoke `run_migration` with the direction string "up", so
evaluating `migrate_down` at a state with distinct up and down scripts for
version 1 commits the up script plus the insert statement instead. -/
theorem migrate_down_executes_up_script :
    (migrate_down ⟨1, [1], [1]⟩ envUpDown false).log =
      [[Stmt.script "CREATE TABLE t (x INT)", Stmt.insertVersion 1]] ∧
    (migrate_down ⟨1, [1], [1]⟩ envUpDown false).log ≠
      [[Stmt.script "DROP TABLE t", Stmt.deleteVersion 1]] ∧
    (migrate_down ⟨1, [1], [1]⟩ envUpDown false).result = .ok 1 := by
  decide

/-- C9: when some down scripts exist but none is at or below the current
head, `migrate_down_n` (for any n of at least 1) and `migrate_down` both
return count 0 without error, commit nothing, and reset the in-memory head
to 0 even though no version was undone. -/
theorem empty_down_plan_resets_head (m : Migrator) (env : Env) (n : Nat)
    (test : Bool) (hvs : m.versions_down ≠ []) (hn : 1 ≤ n)
    (hgt : ∀ x ∈ m.versions_down, m.last_version < x) :
    migrate_down_n m env n test =
      ⟨⟨0, m.versions_up, m.versions_down⟩, [], .ok 0⟩ ∧
    migrate_down m env test =
      ⟨⟨0, m.versions_up, m.versions_down⟩, [], .ok 0⟩ := by
  have hsel : downSelN m.last_version m.versions_down n = ([], 0) :=
    downSelN_empty _ _ _ hgt
  constructor
  · have hloop : runDownLoop env test
        (downSelN m.last_version m.versions_down n).1 m.last_version [] =
        (m.last_version, [], none) := by
      rw [hsel]
      rfl
    rw [migrate_down_n_ok_shape m env n test m.last_version [] hvs
      (by omega) hloop, hsel]
    rfl
  · have hall : downSelAll m.last_version m.versions_down = [] :=
      downSelAllGo_nil _ _ fun x hx => hgt x (List.mem_reverse.1 hx)
    have hloop2 : runDownLoop env test
        (downSelAll m.last_version m.versions_down) m.last_version [] =
        (m.last_version, [], none) := by
      rw [hall]
      rfl
    rw [migrate_down_ok_shape m env test m.last_version [] hvs hloop2, hall]
    rfl

theorem empty_down_plan_resets_head_witness :
    (∀ x ∈ ([5] : List Int), (0 : Int) < x) ∧
    migrate_down_n ⟨0, [], [5]⟩ envNoFiles 1 false =
      ⟨⟨0, [], [5]⟩, [], .ok 0⟩ ∧
    migrate_down ⟨0, [], [5]⟩ envNoFiles false =
      ⟨⟨0, [], [5]⟩, [], .ok 0⟩ :=
  ⟨by decide,
   empty_down_plan_resets_head ⟨0, [], [5]⟩ envNoFiles 1 false
     (by decide) (by decide) (by decide)⟩

/-- C8 counterexample: with versions_down empty AND n = 0, `migrate_down_n`
fails with the no-migrations error, not the invalid-argument error the claim
requires whenever n = 0, because the emptiness check precedes the n = 0
check. -/
theorem down_n_zero_on_empty_is_no_migrations :
    (migrate_down_n ⟨0, [], []⟩ envNoFiles 0 false).result =
      .error .noMigrations ∧
    MigError.noMigrations ≠ MigError.invalidArgument := by
  decide

/-- C8 amended: `migrate_up` and `migrate_up_n` fail with the no-migrations
error whenever versions_up is empty; `migrate_down` and `migrate_down_n`
fail with the no-migrations error whenever versions_down is empty;
`migrate_down_n` fails with the invalid-argument error when n = 0 and
versions_down is non-empty (when both conditions hold, the emptiness error
takes precedence); in each failure case the migrator state is returned
untouched and no transaction is committed. -/
theorem error_cases_leave_state_untouched (m : Migrator) (env : Env)
    (n : Nat) (test : Bool) :
    (m.versions_up = [] →
      migrate_up_n m env n test = ⟨m, [], .error .noMigrations⟩ ∧
      migrate_up m env test = ⟨m, [], .error .noMigrations⟩) ∧
    (m.versions_down = [] →
      migrate_down_n m env n test = ⟨m, [], .error .noMigrations⟩ ∧
      migrate_down m env test = ⟨m, [], .error .noMigrations⟩) ∧
    (m.versions_down ≠ [] → n = 0 →
      migrate_down_n m env n test = ⟨m, [], .error .invalidArgument⟩) := by
  refine ⟨fun h => ⟨?_, ?_⟩, fun h => ⟨?_, ?_⟩, fun h1 h2 => ?_⟩
  · unfold migrate_up_n
    rw [if_pos h]
  · unfold migrate_up
    rw [if_pos h]
  · unfold migrate_down_n
    rw [if_pos h]
  · unfold migrate_down
    rw [if_pos h]
  · unfold migrate_down_n
    rw [if_neg h1, if_pos h2]

theorem error_cases_leave_state_untouched_witness :
    migrate_up_n ⟨3, [], [1]⟩ envNoFiles 2 false =
      ⟨⟨3, [], [1]⟩, [], .error .noMigrations⟩ ∧
    migrate_down_n ⟨3, [1], [1]⟩ envNoFiles 0 false =
      ⟨⟨3, [1], [1]⟩, [], .error .invalidArgument⟩ :=
  ⟨((error_cases_leave_state_untouched ⟨3, [], [1]⟩ envNoFiles 2 false).1
      (by decide)).1,
   (error_cases_leave_state_untouched ⟨3, [1], [1]⟩ envNoFiles 0 false).2.2
     (by decide) (by decide)⟩

/-- C5: for a non-empty ascending versions_up and any n, the plan of
`migrate_up_n` is the length-min(n, |UpAll plan|) prefix of the plan of
`migrate_up` from the same state, and `migrate_up_n` with n = 0 returns
count 0 without error, commits nothing, and leaves the state unchanged. -/
theorem up_n_prefix_of_up_all (m : Migrator) (env : Env) (n : Nat)
    (test : Bool) (hs : m.versions_up.Pairwise (· < ·))
    (hvs : m.versions_up ≠ []) :
    upSelN m.last_version m.versions_up n =
      (upSelAll m.last_version m.versions_up).take n ∧
    (upSelN m.last_version m.versions_up n).length =
      min n (upSelAll m.last_version m.versions_up).length ∧
    migrate_up_n m env 0 test = ⟨m, [], .ok 0⟩ := by
  have hpre : upSelN m.last_version m.versions_up n =
      (upSelAll m.last_version m.versions_up).take n := by
    unfold upSelN upSelAll
    have h := upSelNGo_take n m.versions_up m.last_version 0
    simpa using h
  refine ⟨hpre, ?_, ?_⟩
  · rw [hpre, List.length_take]
  · have hplan : upSelN m.last_version m.versions_up 0 = [] :=
      upSelNGo_sat 0 _ _ 0 (le_refl 0)
    have hloop : runUpLoop env test (upSelN m.last_version m.versions_up 0)
        m.last_version [] = (m.last_version, [], none) := by
      rw [hplan]
      rfl
    rw [migrate_up_n_ok_shape m env 0 test m.last_version [] hvs hloop, hplan]
    rfl

theorem up_n_prefix_of_up_all_witness :
    upSelN 0 [1, 2, 3] 2 = (upSelAll 0 [1, 2, 3]).take 2 ∧
    (upSelN 0 [1, 2, 3] 2).length = min 2 (upSelAll 0 [1, 2, 3]).length ∧
    migrate_up_n ⟨0, [1, 2, 3], []⟩ envNoFiles 0 true =
      ⟨⟨0, [1, 2, 3], []⟩, [], .ok 0⟩ :=
  up_n_prefix_of_up_all ⟨0, [1, 2, 3], []⟩ envNoFiles 2 true
    (by decide) (by decide)

/-- C3: for a non-empty ascending versions_up, `migrate_up` plans exactly the
versions strictly greater than the current head, in ascending order (the
plan equals the order-preserving filter of versions_up); when it returns
successfully, the returned count is the length of the plan and the final head is
the last element of the plan, or the old head if the plan is empty. -/
theorem migrate_up_selects_and_finalizes (m : Migrator) (env : Env)
    (test : Bool) (c : Nat) (hs : m.versions_up.Pairwise (· < ·))
    (hvs : m.versions_up ≠ [])
    (hok : (migrate_up m env test).result = .ok c) :
    upSelAll m.last_version m.versions_up =
      m.versions_up.filter (fun x => decide (m.last_version < x)) ∧
    c = (m.versions_up.filter fun x => decide (m.last_version < x)).length ∧
    (migrate_up m env test).state.last_version =
      (m.versions_up.filter fun x => decide (m.last_version < x)).getLastD
        m.last_version := by
  have hplan : upSelAll m.last_version m.versions_up =
      m.versions_up.filter fun x => decide (m.last_version < x) :=
    upSelAllGo_filter _ _ hs
  rcases hloop : runUpLoop env test (upSelAll m.last_version m.versions_up)
      m.last_version [] with ⟨lv, log, err⟩
  cases err with
  | some e =>
    rw [migrate_up_err_shape m env test lv log e hvs hloop] at hok
    exact absurd hok (by simp)
  | none =>
    rw [migrate_up_ok_shape m env test lv log hvs hloop] at hok ⊢
    have hc := Except.ok.inj hok
    refine ⟨hplan, ?_, ?_⟩
    · rw [← hc, hplan]
    · have hlv := runUpLoop_none env test _ _ _ lv log hloop
      show lv = _
      rw [hlv, hplan]

theorem migrate_up_selects_and_finalizes_witness :
    upSelAll 1 [1, 2, 3] = List.filter (fun x => decide (1 < x)) [1, 2, 3] ∧
    2 = (List.filter (fun x => decide ((1 : Int) < x)) [1, 2, 3]).length ∧
    (migrate_up ⟨1, [1, 2, 3], []⟩ envNoFiles true).state.last_version =
      (List.filter (fun x => decide ((1 : Int) < x)) [1, 2, 3]).getLastD 1 :=
  migrate_up_selects_and_finalizes ⟨1, [1, 2, 3], []⟩ envNoFiles true 2
    (by decide) (by decide) (by decide)

/-- C4: for a non-empty ascending versions_down, `migrate_down` plans exactly
the versions at or below the current head, in descending order (the reverse
of the order-preserving filter); when it returns successfully, the returned
count is the length of the plan and the final head is 0. -/
theorem migrate_down_selects_and_resets (m : Migrator) (env : Env)
    (test : Bool) (c : Nat) (hs : m.versions_down.Pairwise (· < ·))
    (hvs : m.versions_down ≠ [])
    (hok : (migrate_down m env test).result = .ok c) :
    downSelAll m.last_version m.versions_down =
      (m.versions_down.filter fun x => decide (x ≤ m.last_version)).reverse ∧
    c = (m.versions_down.filter fun x => decide (x ≤ m.last_version)).length ∧
    (migrate_down m env test).state.last_version = 0 := by
  have hplan : downSelAll m.last_version m.versions_down =
      (m.versions_down.filter fun x => decide (x ≤ m.last_version)).reverse := by
    unfold downSelAll
    rw [downSelAllGo_filter _ _ (List.pairwise_reverse.2 hs),
      List.filter_reverse]
  rcases hloop : runDownLoop env test
      (downSelAll m.last_version m.versions_down)
      m.last_version [] with ⟨lv, log, err⟩
  cases err with
  | some e =>
    rw [migrate_down_err_shape m env test lv log e hvs hloop] at hok
    exact absurd hok (by simp)
  | none =>
    rw [migrate_down_ok_shape m env test lv log hvs hloop] at hok ⊢
    have hc := Except.ok.inj hok
    refine ⟨hplan, ?_, rfl⟩
    rw [← hc, hplan, List.length_reverse]

theorem migrate_down_selects_and_resets_witness :
    downSelAll 2 [1, 2, 3] =
      (List.filter (fun x => decide (x ≤ (2 : Int))) [1, 2, 3]).reverse ∧
    2 = (List.filter (fun x => decide (x ≤ (2 : Int))) [1, 2, 3]).length ∧
    (migrate_down ⟨2, [], [1, 2, 3]⟩ envNoFiles true).state.last_version = 0 :=
  migrate_down_selects_and_resets ⟨2, [], [1, 2, 3]⟩ envNoFiles true 2
    (by decide) (by decide) (by decide)

/-- C10: no operation of the program ever writes a schema_migrations row with
dirty = true: the only insert issued by the program omits the dirty column (schema
default FALSE) and no program statement updates dirty, so replaying the
committed transactions of any operation on a table whose rows are all clean
leaves every row clean, and the dirty-state check of `Config::init` cannot
fire on a table produced by this program — only on state produced outside
it. -/
theorem program_never_writes_dirty (m : Migrator) (env : Env) (n : Nat)
    (test : Bool) (t : Table) (h : ∀ r ∈ t, r.2 = false) :
    (∀ r ∈ applyLog t (migrate_up_n m env n test).log, r.2 = false) ∧
    init_read_head (applyLog t (migrate_up_n m env n test).log) ≠
      .error .dirtyState ∧
    (∀ r ∈ applyLog t (migrate_up m env test).log, r.2 = false) ∧
    init_read_head (applyLog t (migrate_up m env test).log) ≠
      .error .dirtyState ∧
    (∀ r ∈ applyLog t (migrate_down_n m env n test).log, r.2 = false) ∧
    init_read_head (applyLog t (migrate_down_n m env n test).log) ≠
      .error .dirtyState ∧
    (∀ r ∈ applyLog t (migrate_down m env test).log, r.2 = false) ∧
    init_read_head (applyLog t (migrate_down m env test).log) ≠
      .error .dirtyState :=
  ⟨applyLog_clean _ t h,
   init_read_head_clean _ (applyLog_clean _ t h),
   applyLog_clean _ t h,
   init_read_head_clean _ (applyLog_clean _ t h),
   applyLog_clean _ t h,
   init_read_head_clean _ (applyLog_clean _ t h),
   applyLog_clean _ t h,
   init_read_head_clean _ (applyLog_clean _ t h)⟩

theorem program_never_writes_dirty_witness :
    (∀ r ∈ ([] : Table), r.2 = false) ∧
    init_read_head
      (applyLog [] (migrate_up ⟨0, [1], []⟩ envUpDown false).log) ≠
      .error .dirtyState :=
  ⟨by simp,
   (program_never_writes_dirty ⟨0, [1], []⟩ envUpDown 1 false []
     (by simp)).2.2.2.1⟩

/-- C6 counterexample: a concrete run of `migrate_down_n` with test = false in
which the in-memory head is set to a planned version before that version's
transaction commits.  Execution fails at version 2: the only committed
transaction is version 3's, yet the final in-memory head is 2 — the head was
assigned before the (never-committed) transaction of version 2 ran, refuting
the claim that the head is advanced only after a successful commit. -/
theorem down_sets_head_before_commit :
    (migrate_down_n ⟨3, [], [1, 2, 3]⟩ envFailAt2 3 false).state.last_version
      = 2 ∧
    (migrate_down_n ⟨3, [], [1, 2, 3]⟩ envFailAt2 3 false).log =
      [[Stmt.insertVersion 3]] ∧
    (migrate_down_n ⟨3, [], [1, 2, 3]⟩ envFailAt2 3 false).result =
      .error (.migrationFailed 2 "up") ∧
    (∀ q ∈ (migrate_down_n ⟨3, [], [1, 2, 3]⟩ envFailAt2 3 false).log,
      Stmt.insertVersion 2 ∉ q) := by
  decide

/-- C6 amended: the up operations advance the in-memory head only after the
corresponding transaction commits — the final head is either the initial one
or a version whose committed transaction appears in the log; the down
operations instead set the head to each planned version before executing its
transaction, so when execution fails the final in-memory head equals the
version named in the failure error even though the transaction of that version
never committed. -/
theorem current_version_update_discipline (m : Migrator) (env : Env)
    (n : Nat) (v : Int) (s : String) :
    ((migrate_up_n m env n false).state.last_version = m.last_version ∨
      ∃ q ∈ (migrate_up_n m env n false).log,
        Stmt.insertVersion ((migrate_up_n m env n false).state.last_version)
          ∈ q) ∧
    ((migrate_up m env false).state.last_version = m.last_version ∨
      ∃ q ∈ (migrate_up m env false).log,
        Stmt.insertVersion ((migrate_up m env false).state.last_version)
          ∈ q) ∧
    ((migrate_down_n m env n false).result =
        .error (.migrationFailed v s) →
      (migrate_down_n m env n false).state.last_version = v) ∧
    ((migrate_down m env false).result = .error (.migrationFailed v s) →
      (migrate_down m env false).state.last_version = v) := by
  refine ⟨?_, ?_, ?_, ?_⟩
  · by_cases hvs : m.versions_up = []
    · left
      unfold migrate_up_n
      rw [if_pos hvs]
    · rcases hloop : runUpLoop env false (upSelN m.last_version m.versions_up n)
          m.last_version [] with ⟨lv, log, err⟩
      have hcom := runUpLoop_lv_committed env _ _ _ lv log err hloop
      cases err with
      | none =>
        rw [migrate_up_n_ok_shape m env n false lv log hvs hloop]
        exact hcom
      | some e =>
        rw [migrate_up_n_err_shape m env n false lv log e hvs hloop]
        exact hcom
  · by_cases hvs : m.versions_up = []
    · left
      unfold migrate_up
      rw [if_pos hvs]
    · rcases hloop : runUpLoop env false (upSelAll m.last_version m.versions_up)
          m.last_version [] with ⟨lv, log, err⟩
      have hcom := runUpLoop_lv_committed env _ _ _ lv log err hloop
      cases err with
      | none =>
        rw [migrate_up_ok_shape m env false lv log hvs hloop]
        exact hcom
      | some e =>
        rw [migrate_up_err_shape m env false lv log e hvs hloop]
        exact hcom
  · intro herr
    by_cases hvs : m.versions_down = []
    · unfold migrate_down_n at herr
      rw [if_pos hvs] at herr
      exact absurd herr (by simp)
    · by_cases hn0 : n = 0
      · unfold migrate_down_n at herr
        rw [if_neg hvs, if_pos hn0] at herr
        exact absurd herr (by simp)
      · rcases hloop : runDownLoop env false
            (downSelN m.last_version m.versions_down n).1
            m.last_version [] with ⟨lv, log, err⟩
        cases err with
        | none =>
          rw [migrate_down_n_ok_shape m env n false lv log hvs hn0 hloop]
            at herr
          exact absurd herr (by simp)
        | some e =>
          rw [migrate_down_n_err_shape m env n false lv log e hvs hn0 hloop]
            at herr ⊢
          have he := Except.error.inj herr
          obtain ⟨w, pre, post, hsplit, hew, hlog, hlvw⟩ :=
            runDownLoop_error env _ _ _ lv log e hloop
          rw [hew] at he
          injection he with h1 h2
          show lv = v
          rw [hlvw, h1]
  · intro herr
    by_cases hvs : m.versions_down = []
    · unfold migrate_down at herr
      rw [if_pos hvs] at herr
      exact absurd herr (by simp)
    · rcases hloop : runDownLoop env false
          (downSelAll m.last_version m.versions_down)
          m.last_version [] with ⟨lv, log, err⟩
      cases err with
      | none =>
        rw [migrate_down_ok_shape m env false lv log hvs hloop] at herr
        exact absurd herr (by simp)
      | some e =>
        rw [migrate_down_err_shape m env false lv log e hvs hloop] at herr ⊢
        have he := Except.error.inj herr
        obtain ⟨w, pre, post, hsplit, hew, hlog, hlvw⟩ :=
          runDownLoop_error env _ _ _ lv log e hloop
        rw [hew] at he
        injection he with h1 h2
        show lv = v
        rw [hlvw, h1]

theorem current_version_update_discipline_witness :
    (migrate_down_n ⟨3, [], [1, 2, 3]⟩ envFailAt2 3 false).result =
      .error (.migrationFailed 2 "up") ∧
    (migrate_down_n ⟨3, [], [1, 2, 3]⟩ envFailAt2 3 false).state.last_version
      = 2 :=
  ⟨by decide,
   (current_version_update_discipline ⟨3, [], [1, 2, 3]⟩ envFailAt2 3 2
     "up").2.2.1 (by decide)⟩

/-- C7 counterexample: when a down operation fails at a version, the error it
returns carries the hardcoded suffix "up" (the message reads
"error running migration 2_up.sql") although the direction of the operation is
down, so the error does not name the down direction as the claim requires. -/
theorem down_failure_names_up_suffix :
    (migrate_down ⟨3, [], [1, 2, 3]⟩ envFailAt2 false).result =
      .error (.migrationFailed 2 "up") ∧
    MigError.migrationFailed 2 "up" ≠ MigError.migrationFailed 2 "down" := by
  decide

/-- C7 amended: whenever one of the four operations returns the
migration-failure error, the error names the failing version together with
the hardcoded suffix "up" (even for the down operations), the failing
version occurs in the selected plan, and the committed transactions are
exactly those of the plan positions strictly before it — no later version of
the plan is attempted. -/
theorem migration_failure_aborts_plan (m : Migrator) (env : Env) (n : Nat)
    (v : Int) (s : String) :
    ((migrate_up_n m env n false).result = .error (.migrationFailed v s) →
      s = "up" ∧ ∃ pre post,
        upSelN m.last_version m.versions_up n = pre ++ v :: post ∧
        (migrate_up_n m env n false).log = pre.map (upQueries env)) ∧
    ((migrate_up m env false).result = .error (.migrationFailed v s) →
      s = "up" ∧ ∃ pre post,
        upSelAll m.last_version m.versions_up = pre ++ v :: post ∧
        (migrate_up m env false).log = pre.map (upQueries env)) ∧
    ((migrate_down_n m env n false).result =
        .error (.migrationFailed v s) →
      s = "up" ∧ ∃ pre post,
        (downSelN m.last_version m.versions_down n).1 = pre ++ v :: post ∧
        (migrate_down_n m env n false).log = pre.map (upQueries env)) ∧
    ((migrate_down m env false).result = .error (.migrationFailed v s) →
      s = "up" ∧ ∃ pre post,
        downSelAll m.last_version m.versions_down = pre ++ v :: post ∧
        (migrate_down m env false).log = pre.map (upQueries env)) := by
  refine ⟨?_, ?_, ?_, ?_⟩
  · intro herr
    by_cases hvs : m.versions_up = []
    · unfold migrate_up_n at herr
      rw [if_pos hvs] at herr
      exact absurd herr (by simp)
    · rcases hloop : runUpLoop env false (upSelN m.last_version m.versions_up n)
          m.last_version [] with ⟨lv, log, err⟩
      cases err with
      | none =>
        rw [migrate_up_n_ok_shape m env n false lv log hvs hloop] at herr
        exact absurd herr (by simp)
      | some e =>
        rw [migrate_up_n_err_shape m env n false lv log e hvs hloop] at herr ⊢
        have he := Except.error.inj herr
        obtain ⟨w, pre, post, hsplit, hew, hlog, hlvw⟩ :=
          runUpLoop_error env _ _ _ lv log e hloop
        rw [hew] at he
        injection he with h1 h2
        refine ⟨h2.symm, pre, post, ?_, ?_⟩
        · rw [← h1]
          exact hsplit
        · show log = pre.map (upQueries env)
          rw [hlog]
          simp
  · intro herr
    by_cases hvs : m.versions_up = []
    · unfold migrate_up at herr
      rw [if_pos hvs] at herr
      exact absurd herr (by simp)
    · rcases hloop : runUpLoop env false (upSelAll m.last_version m.versions_up)
          m.last_version [] with ⟨lv, log, err⟩
      cases err with
      | none =>
        rw [migrate_up_ok_shape m env false lv log hvs hloop] at herr
        exact absurd herr (by simp)
      | some e =>
        rw [migrate_up_err_shape m env false lv log e hvs hloop] at herr ⊢
        have he := Except.error.inj herr
        obtain ⟨w, pre, post, hsplit, hew, hlog, hlvw⟩ :=
          runUpLoop_error env _ _ _ lv log e hloop
        rw [hew] at he
        injection he with h1 h2
        refine ⟨h2.symm, pre, post, ?_, ?_⟩
        · rw [← h1]
          exact hsplit
        · show log = pre.map (upQueries env)
          rw [hlog]
          simp
  · intro herr
    by_cases hvs : m.versions_down = []
    · unfold migrate_down_n at herr
      rw [if_pos hvs] at herr
      exact absurd herr (by simp)
    · by_cases hn0 : n = 0
      · unfold migrate_down_n at herr
        rw [if_neg hvs, if_pos hn0] at herr
        exact absurd herr (by simp)
      · rcases hloop : runDownLoop env false
            (downSelN m.last_version m.versions_down n).1
            m.last_version [] with ⟨lv, log, err⟩
        cases err with
        | none =>
          rw [migrate_down_n_ok_shape m env n false lv log hvs hn0 hloop]
            at herr
          exact absurd herr (by simp)
        | some e =>
          rw [migrate_down_n_err_shape m env n false lv log e hvs hn0 hloop]
            at herr ⊢
          have he := Except.error.inj herr
          obtain ⟨w, pre, post, hsplit, hew, hlog, hlvw⟩ :=
            runDownLoop_error env _ _ _ lv log e hloop
          rw [hew] at he
          injection he with h1 h2
          refine ⟨h2.symm, pre, post, ?_, ?_⟩
          · rw [← h1]
            exact hsplit
          · show log = pre.map (upQueries env)
            rw [hlog]
            simp
  · intro herr
    by_cases hvs : m.versions_down = []
    · unfold migrate_down at herr
      rw [if_pos hvs] at herr
      exact absurd herr (by simp)
    · rcases hloop : runDownLoop env false
          (downSelAll m.last_version m.versions_down)
          m.last_version [] with ⟨lv, log, err⟩
      cases err with
      | none =>
        rw [migrate_down_ok_shape m env false lv log hvs hloop] at herr
        exact absurd herr (by simp)
      | some e =>
        rw [migrate_down_err_shape m env false lv log e hvs hloop] at herr ⊢
        have he := Except.error.inj herr
        obtain ⟨w, pre, post, hsplit, hew, hlog, hlvw⟩ :=
          runDownLoop_error env _ _ _ lv log e hloop
        rw [hew] at he
        injection he with h1 h2
        refine ⟨h2.symm, pre, post, ?_, ?_⟩
        · rw [← h1]
          exact hsplit
        · show log = pre.map (upQueries env)
          rw [hlog]
          simp

theorem migration_failure_aborts_plan_witness :
    (migrate_down ⟨3, [], [1, 2, 3]⟩ envFailAt2 false).result =
      .error (.migrationFailed 2 "up") ∧
    ("up" = "up" ∧ ∃ pre post,
      downSelAll 3 [1, 2, 3] = pre ++ 2 :: post ∧
      (migrate_down ⟨3, [], [1, 2, 3]⟩ envFailAt2 false).log =
        pre.map (upQueries envFailAt2)) :=
  ⟨by decide,
   (migration_failure_aborts_plan ⟨3, [], [1, 2, 3]⟩ envFailAt2 1 2
     "up").2.2.2 (by decide)⟩

theorem migrate_down_n_ok_fields (m : Migrator) (env : Env) (n : Nat)
    (test : Bool) (lv : Int) (log : List (List Stmt))
    (hvs : m.versions_down ≠ []) (hn0 : ¬ n = 0)
    (hloop : runDownLoop env test
      (downSelN m.last_version m.versions_down n).1
      m.last_version [] = (lv, log, none)) :
    (migrate_down_n m env n test).state.last_version =
      (if 0 < (downSelN m.last_version m.versions_down n).2 then
        match m.versions_down[(downSelN m.last_version m.versions_down n).2
            - 1]? with
        | some v => v
        | none => lv
       else 0) ∧
    (migrate_down_n m env n test).result =
      .ok (downSelN m.last_version m.versions_down n).1.length := by
  rw [migrate_down_n_ok_shape m env n test lv log hvs hn0 hloop]
  exact ⟨rfl, rfl⟩

/-- C2: whenever `migrate_down_n` applied to an ascending versions_down with
n of at least 1 selects a non-empty plan and completes successfully, the
returned count is the length of the plan and the resulting head is the entry of
versions_down at the ascending index immediately before the index of the
oldest version undone (the last element of the plan), or 0 when the oldest undone
version sits at ascending index 0. -/
theorem migrate_down_n_new_head (m : Migrator) (env : Env) (n : Nat)
    (test : Bool) (c : Nat)
    (hs : m.versions_down.Pairwise (· < ·)) (hn : 1 ≤ n)
    (hne : (downSelN m.last_version m.versions_down n).1 ≠ [])
    (hok : (migrate_down_n m env n test).result = .ok c) :
    c = (downSelN m.last_version m.versions_down n).1.length ∧
    ∃ idx, m.versions_down[idx]? =
        some ((downSelN m.last_version m.versions_down n).1.getLastD 0) ∧
      ((idx = 0 ∧ (migrate_down_n m env n test).state.last_version = 0) ∨
       (0 < idx ∧ m.versions_down[idx - 1]? =
          some ((migrate_down_n m env n test).state.last_version))) := by
  have hAne : m.versions_down.takeWhile
      (fun y => decide (y ≤ m.last_version)) ≠ [] := by
    intro hA
    apply hne
    have hgt : ∀ x ∈ m.versions_down, m.last_version < x := by
      intro x hx
      have hx2 : x ∈ m.versions_down.dropWhile
          (fun y => decide (y ≤ m.last_version)) := by
        rw [← List.takeWhile_append_dropWhile
          (fun y => decide (y ≤ m.last_version)) m.versions_down] at hx
        rw [hA] at hx
        simpa using hx
      exact sorted_dropWhile_gt _ _ hs x hx2
    rw [downSelN_empty _ _ _ hgt]
  set A := m.versions_down.takeWhile (fun y => decide (y ≤ m.last_version))
    with hAdef
  have hsel := downSelN_eq m.last_version m.versions_down n hs hn hAne
  have hvssplit : m.versions_down = A ++ m.versions_down.dropWhile
      (fun y => decide (y ≤ m.last_version)) :=
    (List.takeWhile_append_dropWhile _ _).symm
  have hlenvs : m.versions_down.length = A.length +
      (m.versions_down.dropWhile (fun y => decide (y ≤ m.last_version))).length
      := by
    conv_lhs => rw [hvssplit]
    rw [List.length_append]
  have h1 : 1 ≤ A.length := List.length_pos.2 hAne
  have hu1 : 1 ≤ min n A.length := by omega
  have hut : min n A.length ≤ A.length := min_le_right _ _
  have hTu : A.length - min n A.length < A.length := by omega
  have hvs_ne : m.versions_down ≠ [] := by
    intro h0
    apply hAne
    rw [hAdef, h0]
    rfl
  have hn0 : ¬ n = 0 := by omega
  rcases hloop : runDownLoop env test
      (downSelN m.last_version m.versions_down n).1
      m.last_version [] with ⟨lv, log, err⟩
  cases err with
  | some e =>
    rw [migrate_down_n_err_shape m env n test lv log e hvs_ne hn0 hloop]
      at hok
    exact absurd hok (by simp)
  | none =>
    have hfields :=
      migrate_down_n_ok_fields m env n test lv log hvs_ne hn0 hloop
    rw [hfields.2] at hok
    have hc := Except.ok.inj hok
    refine ⟨hc.symm, ?_⟩
    rw [hfields.1]
    have hplan : (downSelN m.last_version m.versions_down n).1 =
        A.reverse.take n := by
      rw [hsel]
    have hidx : (downSelN m.last_version m.versions_down n).2 =
        A.length - min n A.length := by
      rw [hsel]
    rw [hplan, hidx]
    refine ⟨A.length - min n A.length, ?_, ?_⟩
    · have hlenplan : (A.reverse.take n).length = min n A.length := by
        rw [List.length_take, List.length_reverse]
      obtain ⟨val, hval⟩ : ∃ x,
          A[A.length - min n A.length]? = some x :=
        ⟨_, List.getElem?_eq_getElem hTu⟩
      have hold : (A.reverse.take n).getLastD 0 = val := by
        rw [List.getLastD_eq_getLast?, List.getLast?_eq_getElem?, hlenplan,
          List.getElem?_take, if_pos (by omega : min n A.length - 1 < n),
          List.getElem?_reverse (by omega : min n A.length - 1 < A.length)]
        have harith : A.length - 1 - (min n A.length - 1) =
            A.length - min n A.length := by omega
        rw [harith, hval]
        rfl
      rw [hold]
      conv_lhs => rw [hvssplit]
      rw [List.getElem?_append_left hTu, hval]
    · by_cases hz : A.length - min n A.length = 0
      · left
        refine ⟨hz, ?_⟩
        rw [hz]
        simp
      · right
        refine ⟨by omega, ?_⟩
        rw [if_pos (by omega : 0 < A.length - min n A.length)]
        obtain ⟨w, hw⟩ : ∃ x,
            m.versions_down[A.length - min n A.length - 1]? = some x :=
          ⟨_, List.getElem?_eq_getElem (by omega :
            A.length - min n A.length - 1 < m.versions_down.length)⟩
        rw [hw]

theorem migrate_down_n_new_head_witness :
    (1 : Nat) ≤ 5 ∧
    (migrate_down_n ⟨12, [], fifteen⟩ envNoFiles 5 true).state.last_version
      = 7 ∧
    fifteen[6]? = some 7 ∧
    (5 = (downSelN 12 fifteen 5).1.length ∧
     ∃ idx, fifteen[idx]? = some ((downSelN 12 fifteen 5).1.getLastD 0) ∧
       ((idx = 0 ∧
          (migrate_down_n ⟨12, [], fifteen⟩ envNoFiles 5
            true).state.last_version = 0) ∨
        (0 < idx ∧ fifteen[idx - 1]? =
          some ((migrate_down_n ⟨12, [], fifteen⟩ envNoFiles 5
            true).state.last_version)))) :=
  ⟨by decide, by decide, by decide,
   migrate_down_n_new_head ⟨12, [], fifteen⟩ envNoFiles 5 true 5
     (by decide) (by decide) (by decide) (by decide)⟩
